import Mathlib

/-!
Verification of the manifest-block transcoder, workspace membership
maintainer, and remote reconciliation state machine of the `bikecase`
repository, against its natural-language specification.

Text is modelled as `List Char` (one byte per character; the sources under
scrutiny are ASCII).  The two external parsers the transcoder delegates to
(`syn::parse_file` and `pulldown_cmark`) are modelled at their boundary, for
the class of inputs the specification concerns: source files whose inner
documentation comments are a leading run of `//!` line comments (optionally
preceded by a shebang line), and markdown documents made of paragraph lines
and ```-fenced code blocks at column 0.
-/

namespace Bikecase

/-- Text, modelled as a list of characters. -/
abbrev Str := List Char

/-- Boolean test that `p` is a prefix of `s` (model of `str::starts_with`). -/
def strStarts : Str → Str → Bool
  | [], _ => true
  | _ :: _, [] => false
  | p :: ps, c :: cs => p = c && strStarts ps cs

/-- Remove all leading spaces (model of `str::trim_start_matches(' ')`). -/
def trimSpaces (s : Str) : Str := s.dropWhile (fun c => c = ' ')

/-- Remove all trailing spaces. -/
def trimTrail (s : Str) : Str := (s.reverse.dropWhile (fun c => c = ' ')).reverse

/-- Does the text end with a newline (model of `str::ends_with('\n')`)? -/
def endsWithNl (s : Str) : Bool := s.getLast? = some '\n'

/-- Strip one trailing carriage return, as `str::lines` does per line. -/
def stripCr (l : Str) : Str := if l.getLast? = some '\r' then l.dropLast else l

/-- Split at `'\n'` treated as a terminator: the final fragment is kept only
when non-empty.  This is the splitting performed by `str::lines` before the
per-line `'\r'` strip. -/
def splitTermNl : Str → List Str
  | [] => []
  | c :: cs =>
    if c = '\n' then [] :: splitTermNl cs
    else
      match splitTermNl cs with
      | [] => [[c]]
      | l :: ls => (c :: l) :: ls

/-- Model of Rust `str::lines`. -/
def rustLines (s : Str) : List Str := (splitTermNl s).map stripCr

/-- Concatenate a list of text fragments. -/
def joinAll : List Str → Str := List.foldr (fun l acc => l ++ acc) []

/-- Join lines, terminating every line with `'\n'` — the shape produced by
`interleave_shortest(iter::repeat("\n"))` in the transcoder's output step. -/
def linesJoin (ls : List Str) : Str := joinAll (ls.map (fun l => l ++ ['\n']))

/-- The byte range `s..e` of a text (model of `&doc[span]`). -/
def strSlice (s e : Nat) (x : Str) : Str := (x.drop s).take (e - s)

/-! ## Markdown event model

Boundary model of `pulldown_cmark::Parser::new_ext(..).into_offset_iter()`
restricted to documents made of blank lines, paragraph lines, and
```-fenced code blocks opened at column 0.  Only the three event shapes the
locator automaton inspects are produced; events it provably ignores
(paragraph/soft-break structure) are omitted.  Spans are byte ranges into
the document: a paragraph line's text span excludes its newline, a fenced
block's single text span covers all of its content lines including their
newlines, and a fence left open at the end of input is closed there. -/

/-- A markdown event paired with the span data the locator consumes. -/
inductive MdEvent where
  | startFence (info : Str)
  | text (s e : Nat)
  | endFence (info : Str)
  deriving DecidableEq, Repr

/-- The literal `"```"` introducing and terminating a fence. -/
def fence3 : Str := "```".data

/-- Is this line a closing fence: backticks then only spaces? -/
def closeFence (l : Str) : Bool :=
  strStarts fence3 l && (l.dropWhile (fun c => c = '`')).all (fun c => c = ' ')

/-- The info string of an opening fence line (text after the backticks,
whitespace-trimmed). -/
def fenceInfo (l : Str) : Str := trimTrail (trimSpaces (l.drop 3))

/-- Scan the document's lines, producing markdown events.  `off` is the byte
offset of the current line; the second argument records an open fence's info
string and the offset where its content started. -/
def mdEventsLines (off : Nat) : Option (Str × Nat) → List Str → List MdEvent
  | none, [] => []
  | some (info, cstart), [] =>
    (if cstart < off then [.text cstart off] else []) ++ [.endFence info]
  | none, l :: ls =>
    if strStarts fence3 l then
      .startFence (fenceInfo l) ::
        mdEventsLines (off + l.length + 1) (some (fenceInfo l, off + l.length + 1)) ls
    else if l = [] then
      mdEventsLines (off + 1) none ls
    else
      .text off (off + l.length) :: mdEventsLines (off + l.length + 1) none ls
  | some (info, cstart), l :: ls =>
    if closeFence l then
      (if cstart < off then [.text cstart off] else []) ++
        .endFence info :: mdEventsLines (off + l.length + 1) none ls
    else
      mdEventsLines (off + l.length + 1) (some (info, cstart)) ls

/-- The event stream of a document. -/
def mdEvents (doc : Str) : List MdEvent := mdEventsLines 0 none (rustLines doc)

/-! ## The locator automaton (`State` in `rust.rs`) -/

/-- The reserved marker: the info string identifying the manifest block
(`"cargo"` in the source). -/
def reservedMarker : Str := "cargo".data

/-- The locator state (`enum State` in `replace_cargo_lang_code`). -/
inductive LocState where
  | none
  | start
  | text (s e : Nat)
  | End (s e : Nat)
  deriving DecidableEq, Repr

/-- One automaton step, mirroring the `fold` body in
`replace_cargo_lang_code`: `None → Start` on an opening fence whose info
string is the reserved marker, `Start → Text` on a text event, `Text → End`
on a closing fence with the reserved marker; all other events leave the
state unchanged, and `End` is absorbing. -/
def locStep (st : LocState) (ev : MdEvent) : LocState :=
  match st with
  | .none =>
    match ev with
    | .startFence info => if info = reservedMarker then .start else .none
    | _ => .none
  | .start =>
    match ev with
    | .text s e => .text s e
    | _ => .start
  | .text s e =>
    match ev with
    | .endFence info => if info = reservedMarker then .End s e else .text s e
    | _ => .text s e
  | .End s e => .End s e

/-- `State::end`: the recorded span, if the automaton reached `End`. -/
def LocState.endSpan : LocState → Option (Nat × Nat)
  | .End s e => Option.some (s, e)
  | _ => Option.none

/-- Run the locator over a document body: fold the automaton over the event
stream and extract the span. -/
def docLocate (doc : Str) : Option (Nat × Nat) :=
  ((mdEvents doc).foldl locStep .none).endSpan

/-! ## The transcoder (`rust.rs`)

The harvest step delegates to `syn::parse_file`; it is modelled at its
boundary for source files whose inner doc attributes are written as a
leading run of `//!` line comments, optionally preceded by a shebang line:
the shebang (a first line starting `#!` but not `#![`) is set aside, each
doc line contributes its content after `//!` with leading spaces trimmed
plus a newline to the doc body, and the doc lines' spans are removed
entirely from the retained code lines (`remove` in the source empties each
doc line, dropping it). -/

/-- Errors of the transcoder: the reserved block was not found; the error
carries the caller-supplied diagnostic label (`on_not_found`). -/
inductive RErr where
  | notFound (label : Str)
  deriving DecidableEq, Repr

/-- The `//!` prefix marking an inner doc-comment line. -/
def innerDoc : Str := "//!".data

/-- Recognize and split off the shebang line, as `syn::parse_file` does: the
content starts with `#!` but not `#![`; the matched first line is removed
from the retained code lines (`code_lines[0] = None`). -/
def splitShebang (ls : List Str) : Option Str × List Str :=
  match ls with
  | [] => (none, [])
  | l0 :: tl =>
    if strStarts "#!".data l0 && !strStarts "#![".data l0 then (some l0, tl)
    else (none, ls)

/-- A doc line's contribution to the doc body:
`lit_str.value().trim_start_matches(' ')` followed by `"\n"`. -/
def contribOf (l : Str) : Str := trimSpaces (l.drop 3) ++ ['\n']

/-- Harvest a source text: the shebang (if any), the leading run of `//!`
doc lines, and the remaining retained lines. -/
def srcParts (code : Str) : Option Str × List Str × List Str :=
  let sbp := splitShebang (rustLines code)
  (sbp.1, sbp.2.takeWhile (fun l => strStarts innerDoc l),
    sbp.2.dropWhile (fun l => strStarts innerDoc l))

/-- The doc body: the concatenated contributions of the doc lines. -/
def docBodyOf (code : Str) : Str := joinAll ((srcParts code).2.1.map contribOf)

/-- Newline-normalize the replacement text: append `'\n'` unless the text is
empty or already newline-terminated (`rust.rs` lines 113–117). -/
def normWith (w : Str) : Str :=
  if w = [] ∨ endsWithNl w = true then w else w ++ ['\n']

/-- Re-emit one doc-body line as a source line: `//!` for an empty line,
`//! ` followed by the content otherwise (`rust.rs` lines 124–130). -/
def emitDocLine (l : Str) : Str :=
  if l = [] then innerDoc else "//! ".data ++ l

/-- Model of `replace_cargo_lang_code`: harvest, locate the reserved fenced
block in the doc body, splice the newline-normalized replacement into the
block's span, re-emit the doc lines with the `//!` prefix, and reassemble
shebang, doc lines and retained lines each terminated by `'\n'`.  Returns
the reassembled source and the replaced manifest text. -/
def replace_cargo_lang_code (code withS label : Str) : Except RErr (Str × Str) :=
  let parts := srcParts code
  let doc := docBodyOf code
  match docLocate doc with
  | none => .error (.notFound label)
  | some (s, e) =>
    let cdoc := doc.take s ++ normWith withS ++ doc.drop e
    let outLs := parts.1.toList ++ (rustLines cdoc).map emitDocLine ++ parts.2.2
    .ok (linesJoin outLs, strSlice s e doc)

/-- Model of `extract_cargo_lang_code`: the second component of
`replace_cargo_lang_code` with the empty replacement. -/
def extract_cargo_lang_code (code label : Str) : Except RErr Str :=
  (replace_cargo_lang_code code [] label).map (fun p => p.2)

/-- The locator-plus-projection on a doc body: the substring of the body at
the located span, or the not-found error carrying the label. -/
def docExtract (doc label : Str) : Except RErr Str :=
  match docLocate doc with
  | none => .error (.notFound label)
  | some (s, e) => .ok (strSlice s e doc)

/-- Modelled from the spec, §4.3 read path, for comparison with the code's
`extract_cargo_lang_code`: "harvest, locate, return the DocBody substring at
ManifestSpan". -/
def extractSpec (code label : Str) : Except RErr Str :=
  docExtract (docBodyOf code) label

/-! ## Canonically formatted sources

The shape `replace_cargo_lang_code` itself emits: an optional shebang line,
then the doc lines rendered with `emitDocLine`, then the retained lines,
each line `'\n'`-terminated. -/

/-- A structured source file: shebang, doc-body lines (contents without the
`//!` prefix), and the remaining opaque lines. -/
structure CanonSrc where
  shebang : Option Str
  docs : List Str
  rest : List Str
  deriving Repr

/-- Render a structured source to text, exactly as the transcoder's output
step does. -/
def renderSrc (t : CanonSrc) : Str :=
  linesJoin (t.shebang.toList ++ t.docs.map emitDocLine ++ t.rest)

/-- No newline and no carriage return occurs in the line. -/
def noNlCr (l : Str) : Bool := l.all (fun c => !(c = '\n') && !(c = '\r'))

/-- Canonical formatting: the shebang (when present) starts `#!` but not
`#![`; every doc content line is newline-free and does not start with a
space; the retained lines are newline-free and their first line is not a
doc line; and there is at least one doc line. -/
def canonicalB (t : CanonSrc) : Bool :=
  (match t.shebang with
   | none => true
   | some sb => strStarts "#!".data sb && !strStarts "#![".data sb && noNlCr sb) &&
  t.docs.all (fun c =>
    noNlCr c && (match c with | [] => true | h :: _ => !(h = ' '))) &&
  t.rest.all noNlCr &&
  (match t.rest with | [] => true | r :: _ => !strStarts innerDoc r) &&
  !t.docs.isEmpty

/-! ## Workspace membership maintainer (`workspace.rs`)

Paths are modelled as component lists.  `Path` equality in Rust compares
normalized components, so after joining to the workspace root a `"."`
component of an entry is normalized away — this is what makes `"./x"` and
`"x"` equal entries.  TOML documents are modelled by their
`workspace.members` / `workspace.exclude` items plus an opaque remainder
standing for all formatting `toml_edit` preserves; `renderWs` stands for
`Document::to_string`, a function of the document. -/

/-- A filesystem path as a list of components. -/
abbrev PathM := List Str

/-- Split at every occurrence of the separator (plain split: `"a/b"` gives
`["a", "b"]`, a trailing separator yields a trailing empty fragment). -/
def splitSep (sep : Char) : Str → List Str
  | [] => [[]]
  | c :: cs =>
    if c = sep then [] :: splitSep sep cs
    else
      match splitSep sep cs with
      | [] => [[c]]
      | p :: ps => (c :: p) :: ps

/-- Render a component list with `/` separators (model of `Path::to_str` on
the paths this system builds). -/
def renderPath : PathM → Str
  | [] => []
  | [c] => c
  | c :: cs => c ++ '/' :: renderPath cs

/-- Join an entry string onto the workspace root and normalize: empty and
`"."` components of the entry are dropped, as `Path::components` does for
non-leading positions (the root occupies the leading position).  Model of
`workspace_root.join(s)` under `Path` equality, for relative entries. -/
def relJoin (root : PathM) (s : Str) : PathM :=
  root ++ (splitSep '/' s).filter (fun c => !(c = []) && !(c = ".".data))

/-- `same_paths`: a TOML value equals the target when it is a string whose
join to the root equals the target's join to the root. -/
inductive TomlVal where
  | str (s : Str)
  | other (tag : Nat)
  deriving DecidableEq, Repr

/-- The `workspace.members` / `workspace.exclude` item: absent, an array, or
present with a non-array value. -/
inductive TomlItem where
  | missing
  | array (xs : List TomlVal)
  | nonArray
  deriving DecidableEq, Repr

/-- The workspace manifest document: the two items the maintainer touches
plus the opaque preserved remainder. -/
structure WsToml where
  members : TomlItem
  exclude : TomlItem
  fmt : Str
  deriving DecidableEq, Repr

/-- `same_paths` from `modify_members`. -/
def samePathsW (root : PathM) (v : TomlVal) (target : Str) : Bool :=
  match v with
  | .str s => relJoin root s = relJoin root target
  | .other _ => false

/-- `relative_to_root`: strip the workspace root prefix if present, then
render as text. -/
def relativeToRoot (root : PathM) (p : PathM) : Str :=
  renderPath (if root.isPrefixOf p then p.drop root.length else p)

/-- `Item::or_insert(empty array)`: materialize a missing item as an empty
array; leave any present item alone. -/
def orInsertArray : TomlItem → TomlItem
  | .missing => .array []
  | it => it

/-- Remove the first element satisfying the predicate
(`position` + `Array::remove` in the source). -/
def removeFirst (p : TomlVal → Bool) : List TomlVal → List TomlVal
  | [] => []
  | v :: vs => if p v then vs else v :: removeFirst p vs

/-- One list's edit in `modify_members`: add the rendered relative path
unless dry-run or an equal entry exists; then, unless dry-run, remove the
first equal entry of the removal target. -/
def editList (root : PathM) (add rm : Option PathM) (dryRun : Bool)
    (xs : List TomlVal) : List TomlVal :=
  let xs :=
    match add with
    | none => xs
    | some p =>
      let a := relativeToRoot root p
      if !dryRun && xs.all (fun v => !samePathsW root v a) then xs ++ [.str a]
      else xs
  match rm with
  | none => xs
  | some p =>
    let r := relativeToRoot root p
    if !dryRun then removeFirst (fun v => samePathsW root v r) xs else xs

/-- `workspace.{members,exclude}` malformed: present but not an array. -/
inductive WErr where
  | notArray (which : Str)
  deriving DecidableEq, Repr

/-- The `info!` reports `modify_members` emits, one per supplied add/remove
request, unconditionally. -/
inductive WLog where
  | added (path which : Str)
  | removed (path which : Str)
  deriving DecidableEq, Repr

/-- What a `modify_members` call produces: the mutated document, the text
handed to the file writer, whether the write actually happened, and the
emitted reports. -/
structure WsOut where
  doc : WsToml
  written : Str
  fileWritten : Bool
  logs : List WLog
  deriving DecidableEq, Repr

/-- Injective stand-in for `toml_edit::Document::to_string`: the document's
text is a function of the document, with formatting preserved in `fmt`. -/
def renderVal : TomlVal → Str
  | .str s => '"' :: s ++ ['"']
  | .other n => '#' :: List.replicate n '#'

/-- Render one item of the workspace table. -/
def renderItem (name : Str) : TomlItem → Str
  | .missing => []
  | .array xs =>
    name ++ " = [".data ++ joinAll ((xs.map renderVal).intersperse ", ".data) ++ "]\n".data
  | .nonArray => name ++ " = <non-array>\n".data

/-- Render the whole document. -/
def renderWs (d : WsToml) : Str :=
  "[workspace]\n".data ++ renderItem "members".data d.members ++
    renderItem "exclude".data d.exclude ++ d.fmt

/-- Access an item as an array, materializing a missing one
(`or_insert(..).as_array_mut().with_context(..)`). -/
def asArray (name : Str) (it : TomlItem) : Except WErr (List TomlVal) :=
  match orInsertArray it with
  | .array xs => .ok xs
  | _ => .error (.notArray name)

/-- The reports for one list's requests. -/
def editLogs (root : PathM) (add rm : Option PathM) (which : Str) : List WLog :=
  (match add with
   | none => []
   | some p => [.added (relativeToRoot root p) which]) ++
  (match rm with
   | none => []
   | some p => [.removed (relativeToRoot root p) which])

/-- Model of `modify_members`: for `members` then `exclude`, access the item
as an array (materializing a missing one), apply the add/remove requests,
and report; finally hand the re-rendered document to the file writer, which
skips the write when `dry_run` is set. -/
def modify_members (root : PathM) (doc : WsToml)
    (addMembers addExclude rmMembers rmExclude : Option PathM)
    (dryRun : Bool) : Except WErr WsOut := do
  let xs ← asArray "members".data doc.members
  let xs := editList root addMembers rmMembers dryRun xs
  let ys ← asArray "exclude".data doc.exclude
  let ys := editList root addExclude rmExclude dryRun ys
  let doc := { doc with members := .array xs, exclude := .array ys }
  .ok { doc, written := renderWs doc, fileWritten := !dryRun,
        logs := editLogs root addMembers rmMembers "members".data ++
          editLogs root addExclude rmExclude "exclude".data }

/-! ## Remote reconciliation (`gist.rs`)

The HTTP transport is modelled at its boundary: `retrieve_rust_code`
receives the parsed remote record (its files in order, and its description);
`push` receives the already-fetched remote content and the id the store
would assign on creation.  Network write calls (`PATCH`, `POST`) and the
operator-visible reports are recorded as data. -/

/-- A file of a remote record, as parsed from the store's response. -/
structure GistFile where
  filename : Str
  truncated : Bool
  content : Str
  deriving DecidableEq, Repr

/-- Model of `Path::extension` for the plain file names of a remote record:
the text after the last dot, provided a dot exists and is not the first
character of the name. -/
def extOf (name : Str) : Option Str :=
  let afterRev := name.reverse.takeWhile (fun c => !(c = '.'))
  if afterRev.length = name.length then none
  else if name.length = afterRev.length + 1 then none
  else some afterRev.reverse

/-- A candidate content file: extension `rs` or `crs`. -/
def isRustFile (f : GistFile) : Bool :=
  extOf f.filename = some "rs".data || extOf f.filename = some "crs".data

/-- The fatal errors of `retrieve_rust_code`'s candidate validation. -/
inductive RcErr where
  | noRust
  | multiple (names : List Str)
  | truncated (name : Str)
  deriving DecidableEq, Repr

/-- Model of `retrieve_rust_code`'s validation of a fetched record: exactly
one candidate file is required (`exactly_one`, its error naming every
candidate when there are several), and a truncated candidate is rejected. -/
def retrieve_rust_code (files : List GistFile) (description : Str) :
    Except RcErr (Str × Str) :=
  match files.filter isRustFile with
  | [] => .error .noRust
  | [f] =>
    if f.truncated then .error (.truncated f.filename)
    else .ok (f.content, description)
  | fs => .error (.multiple (fs.map (fun f => f.filename)))

/-- The options of `push` (`PushOptions`), with the gist-id registry entry
modelled as the optional stored id. -/
structure PushOpts where
  githubToken : Str
  gistId : Option Str
  code : Str
  package : Str
  setUpstream : Bool
  isPrivate : Bool
  description : Option Str
  dryRun : Bool
  deriving DecidableEq, Repr

/-- The reconciliation states (`enum State` in `push`). -/
inductive PushState where
  | upToDate
  | forward (id : Str) (remoteCode remoteDescription : Str)
  | notExist
  deriving DecidableEq, Repr

/-- `description.map_or(true, |d| d == remote_description)`. -/
def descMatches (od : Option Str) (rd : Str) : Bool :=
  match od with
  | none => true
  | some d => d = rd

/-- State selection at the top of `push`: with a stored id, `UpToDate` when
the remote code equals the local code and the supplied description (if any)
equals the remote one, else `Forward`; without a stored id, `NotExist`. -/
def pushState (o : PushOpts) (remote : Str × Str) : PushState :=
  match o.gistId with
  | some gid =>
    if remote.1 = o.code && descMatches o.description remote.2 then .upToDate
    else .forward gid remote.1 remote.2
  | none => .notExist

/-- A network write call. -/
inductive NetWrite where
  | patch (id description filename content : Str)
  | post (description filename content : Str) (isPublic : Bool)
  deriving DecidableEq, Repr

/-- The operator-visible reports `push` emits. -/
inductive PushLog where
  | upToDate
  | dryRunPatch (id : Str)
  | patchReq (id : Str)
  | updated (id : Str)
  | diff (name orig edit : Str)
  | dryRunPost
  | postReq
  | created (id : Str)
  | registrySet (package id : Str)
  deriving DecidableEq, Repr

/-- Everything a `push` call produces: the write calls made, the reports,
the registry entry afterwards, and the overall result. -/
structure PushOut where
  writes : List NetWrite
  logs : List PushLog
  gistIdAfter : Option Str
  result : Except Str Unit
  deriving Repr

instance {ε α : Type} [DecidableEq ε] [DecidableEq α] : DecidableEq (Except ε α) := fun a b =>
  match a, b with
  | .ok x, .ok y =>
    if h : x = y then isTrue (by rw [h]) else isFalse (fun hc => h (by cases hc; rfl))
  | .error x, .error y =>
    if h : x = y then isTrue (by rw [h]) else isFalse (fun hc => h (by cases hc; rfl))
  | .ok _, .error _ => isFalse (fun hc => Except.noConfusion hc)
  | .error _, .ok _ => isFalse (fun hc => Except.noConfusion hc)

instance : DecidableEq PushOut := fun a b => by
  cases a; cases b
  exact decidable_of_iff _ (by simp [PushOut.mk.injEq] at *; exact Iff.rfl)

/-- The message of the `NotExist`-without-`set_upstream` failure. -/
def pushMsgSetUpstream : Str := "to create a new gist, enable `--set-upstream`".data

/-- The `<description>` diff heading. -/
def descHeading : Str := "<description>".data

/-- Model of `push` after the fetch: match on the selected state.  `UpToDate`
reports and does nothing; `Forward` patches the existing record (skipped
under dry-run, which only reports the request line); `NotExist` fails
without `set_upstream`, else creates the record (skipped under dry-run) and
registers the returned id. -/
def push (o : PushOpts) (remote : Str × Str) (newId : Str) : PushOut :=
  match pushState o remote with
  | .upToDate => { writes := [], logs := [.upToDate], gistIdAfter := o.gistId, result := .ok () }
  | .forward gid remoteCode remoteDescription =>
    if o.dryRun then
      { writes := [], logs := [.dryRunPatch gid], gistIdAfter := o.gistId, result := .ok () }
    else
      let description := o.description.getD remoteDescription
      let filename := o.package ++ ".rs".data
      { writes := [.patch gid description filename o.code],
        logs := [.patchReq gid, .updated gid,
          .diff descHeading remoteDescription description,
          .diff filename remoteCode o.code],
        gistIdAfter := o.gistId, result := .ok () }
  | .notExist =>
    if !o.setUpstream then
      { writes := [], logs := [], gistIdAfter := o.gistId, result := .error pushMsgSetUpstream }
    else if o.dryRun then
      { writes := [], logs := [.dryRunPost], gistIdAfter := o.gistId, result := .ok () }
    else
      let filename := o.package ++ ".rs".data
      let description := o.description.getD []
      { writes := [.post description filename o.code (!o.isPrivate)],
        logs := [.postReq, .created newId, .diff descHeading [] description,
          .diff filename [] o.code, .registrySet o.package newId],
        gistIdAfter := some newId, result := .ok () }

/-- The diff reports among a report list. -/
def diffLogs (ls : List PushLog) : List PushLog :=
  ls.filter (fun l => match l with | .diff _ _ _ => true | _ => false)

/-! ## Concrete inputs used by the closed theorems -/

/-- The concrete scenario source of the spec's §8, with the reserved marker
(`cargo` in the code; the spec writes the genericized stand-in `manifest`). -/
def c2Src : Str :=
  "#!/usr/bin/env x\n//! ```cargo\n//! name = \"old\"\n//! ```\nfn main() {}\n".data

/-- The §8 scenario's replacement manifest text. -/
def c2New : Str := "name = \"new\"\n".data

/-- The §8 scenario's extracted manifest text. -/
def c2Old : Str := "name = \"old\"\n".data

/-- The §8 scenario's expected reassembled source. -/
def c2Out : Str :=
  "#!/usr/bin/env x\n//! ```cargo\n//! name = \"new\"\n//! ```\nfn main() {}\n".data

/-- A source on which `extract` succeeds but whose text does not end with a
newline: the reassembly terminates every line with `'\n'`, so the round
trip appends one. -/
def c1xSrc : Str := "//! ```cargo\n//! a = 1\n//! ```\nfn main() {}".data

/-- The manifest text extracted from `c1xSrc`. -/
def c1xManifest : Str := "a = 1\n".data

/-- A concrete canonical source used to witness the amended round-trip
law. -/
def c1wCanon : CanonSrc :=
  ⟨some "#!/usr/bin/env x".data,
   ["```cargo".data, "a = 1".data, "```".data],
   ["fn main() {}".data]⟩

end Bikecase

namespace Bikecase

/-! ## Helper lemmas -/

/-- The locator's fold never leaves `State::None` when no event opens a
fence tagged with the reserved marker. -/
theorem foldl_locStep_of_no_marker (evs : List MdEvent)
    (h : ∀ ev ∈ evs, ev ≠ .startFence reservedMarker) :
    evs.foldl locStep .none = .none := by
  induction evs with
  | nil => rfl
  | cons e es ih =>
    have h1 := h e (List.mem_cons_self _ _)
    have hstep : locStep .none e = .none := by
      cases e with
      | startFence info =>
        have : ¬ info = reservedMarker := fun hh => h1 (by rw [hh])
        simp [locStep, this]
      | text s e => rfl
      | endFence info => rfl
    rw [List.foldl_cons, hstep]
    exact ih (fun ev hm => h ev (List.mem_cons_of_mem _ hm))

/-- Unfolding `joinAll` at a cons. -/
theorem joinAll_cons (l : Str) (ls : List Str) :
    joinAll (l :: ls) = l ++ joinAll ls := rfl

/-- `joinAll` distributes over append. -/
theorem joinAll_append (xs ys : List Str) :
    joinAll (xs ++ ys) = joinAll xs ++ joinAll ys := by
  induction xs with
  | nil => rfl
  | cons l ls ih =>
    rw [List.cons_append, joinAll_cons, joinAll_cons, ih, List.append_assoc]

/-- Unfolding `linesJoin` at a cons. -/
theorem linesJoin_cons (l : Str) (ls : List Str) :
    linesJoin (l :: ls) = l ++ '\n' :: linesJoin ls := by
  simp [linesJoin, joinAll]

/-- `linesJoin` distributes over append. -/
theorem linesJoin_append (xs ys : List Str) :
    linesJoin (xs ++ ys) = linesJoin xs ++ linesJoin ys := by
  simp [linesJoin, joinAll_append]

/-- A non-empty line list joins to non-empty text. -/
theorem linesJoin_length_pos (ls : List Str) (h : ls ≠ []) :
    0 < (linesJoin ls).length := by
  cases ls with
  | nil => exact absurd rfl h
  | cons l ls => rw [linesJoin_cons]; simp

/-- Splitting a newline-terminated line off the front. -/
theorem splitTermNl_line (l rest : Str) (h : '\n' ∉ l) :
    splitTermNl (l ++ '\n' :: rest) = l :: splitTermNl rest := by
  induction l with
  | nil => simp [splitTermNl]
  | cons c cs ih =>
    have hc : ¬ c = '\n' := fun hh => h (hh ▸ List.mem_cons_self _ _)
    have ih' := ih (fun hm => h (List.mem_cons_of_mem _ hm))
    rw [List.cons_append]
    simp only [splitTermNl, hc, if_false, List.append_eq, ih']

/-- `splitTermNl` inverts `linesJoin` on newline-free lines. -/
theorem splitTermNl_linesJoin (ls : List Str) (h : ∀ l ∈ ls, '\n' ∉ l) :
    splitTermNl (linesJoin ls) = ls := by
  induction ls with
  | nil => rfl
  | cons l ls ih =>
    rw [linesJoin_cons, splitTermNl_line l _ (h l (List.mem_cons_self _ _))]
    rw [ih (fun x hx => h x (List.mem_cons_of_mem _ hx))]

/-- The last element of a list is a member. -/
theorem mem_of_getLastQ : ∀ {l : Str} {a : Char}, l.getLast? = some a → a ∈ l
  | [c], a, h => by simp [List.getLast?] at h; simp [h]
  | c :: d :: l, a, h => by
    rw [List.getLast?_cons_cons] at h
    exact List.mem_cons_of_mem _ (mem_of_getLastQ h)

/-- `stripCr` is the identity on lines without a carriage return. -/
theorem stripCr_eq (l : Str) (h : '\r' ∉ l) : stripCr l = l := by
  unfold stripCr
  cases hg : l.getLast? with
  | none => simp
  | some c =>
    have : c ∈ l := mem_of_getLastQ hg
    have hc : ¬ c = '\r' := fun hh => h (hh ▸ this)
    simp [hc]

/-- Unpacking `noNlCr`. -/
theorem noNlCr_spec {l : Str} (h : noNlCr l = true) : '\n' ∉ l ∧ '\r' ∉ l := by
  simp [noNlCr, List.all_eq_true] at h
  constructor
  · intro hm; exact (h '\n' hm).1 rfl
  · intro hm; exact (h '\r' hm).2 rfl

/-- `rustLines` inverts `linesJoin` on clean lines. -/
theorem rustLines_linesJoin (ls : List Str) (h : ∀ l ∈ ls, noNlCr l = true) :
    rustLines (linesJoin ls) = ls := by
  unfold rustLines
  rw [splitTermNl_linesJoin ls (fun l hl => (noNlCr_spec (h l hl)).1)]
  induction ls with
  | nil => rfl
  | cons l ls ih =>
    rw [List.map_cons, stripCr_eq l (noNlCr_spec (h l (List.mem_cons_self _ _))).2]
    rw [ih (fun x hx => h x (List.mem_cons_of_mem _ hx))]

/-- `takeWhile`/`dropWhile` on an all-true prefix followed by a failing
head. -/
theorem takeWhile_dropWhile_split {α : Type} (p : α → Bool) (xs ys : List α)
    (hx : ∀ x ∈ xs, p x = true)
    (hy : ∀ y, ys.head? = some y → p y = false) :
    (xs ++ ys).takeWhile p = xs ∧ (xs ++ ys).dropWhile p = ys := by
  induction xs with
  | nil =>
    cases ys with
    | nil => exact ⟨rfl, rfl⟩
    | cons y ys => simp [List.takeWhile_cons, List.dropWhile_cons, hy y rfl]
  | cons x xs ih =>
    have hpx := hx x (List.mem_cons_self _ _)
    have := ih (fun z hz => hx z (List.mem_cons_of_mem _ hz))
    simp [List.takeWhile_cons, List.dropWhile_cons, hpx, this.1, this.2]

/-- The splice of a text's own slice back into its span is the identity. -/
theorem splice_slice_eq (x : Str) (s e : Nat) (hse : s ≤ e) :
    x.take s ++ strSlice s e x ++ x.drop e = x := by
  have hdrop : x.drop e = (x.drop s).drop (e - s) := by
    rw [List.drop_drop, Nat.add_sub_cancel' hse]
  rw [List.append_assoc, strSlice, hdrop, List.take_append_drop,
    List.take_append_drop]

/-- Every content line of the canonical form emits a line the harvester
recognizes as a doc line. -/
theorem strStarts_innerDoc_emit (c : Str) :
    strStarts innerDoc (emitDocLine c) = true := by
  cases c with
  | nil => rfl
  | cons x t => rfl

/-- No emitted doc line looks like a shebang. -/
theorem strStarts_shebang_emit (c : Str) :
    strStarts "#!".data (emitDocLine c) = false := by
  cases c with
  | nil => rfl
  | cons x t => rfl

/-- Emitted doc lines stay clean. -/
theorem noNlCr_emit (c : Str) (h : noNlCr c = true) :
    noNlCr (emitDocLine c) = true := by
  cases c with
  | nil => rfl
  | cons x t =>
    simp only [emitDocLine, if_neg (List.cons_ne_nil x t)]
    simp [noNlCr, List.all_append] at h ⊢
    exact h

/-- The harvester's contribution of an emitted canonical doc line is the
content followed by a newline. -/
theorem contribOf_emit (c : Str) (h : ∀ x t, c = x :: t → ¬ x = ' ') :
    contribOf (emitDocLine c) = c ++ ['\n'] := by
  cases c with
  | nil => rfl
  | cons x t =>
    have hx : ¬ x = ' ' := h x t rfl
    show contribOf ("//! ".data ++ x :: t) = (x :: t) ++ ['\n']
    show trimSpaces ((("//! ".data ++ x :: t)).drop 3) ++ ['\n'] = (x :: t) ++ ['\n']
    show trimSpaces (' ' :: x :: t) ++ ['\n'] = (x :: t) ++ ['\n']
    simp [trimSpaces, List.dropWhile_cons, hx]

/-- Step equation: a blank line outside a fence emits nothing. -/
theorem mdEventsLines_blank (off : Nat) (ls : List Str) :
    mdEventsLines off none ([] :: ls) = mdEventsLines (off + 1) none ls := rfl

/-- Step equation: a paragraph line outside a fence emits its text event. -/
theorem mdEventsLines_para_line (off : Nat) (l : Str) (ls : List Str)
    (hf : strStarts fence3 l = false) (hnil : l ≠ []) :
    mdEventsLines off none (l :: ls) =
      .text off (off + l.length) :: mdEventsLines (off + l.length + 1) none ls := by
  simp only [mdEventsLines]
  rw [hf]
  simp [hnil]

/-- Step equation: an opening fence line. -/
theorem mdEventsLines_open (off : Nat) (l : Str) (ls : List Str)
    (hf : strStarts fence3 l = true) :
    mdEventsLines off none (l :: ls) =
      .startFence (fenceInfo l) ::
        mdEventsLines (off + l.length + 1) (some (fenceInfo l, off + l.length + 1)) ls := by
  simp only [mdEventsLines]
  rw [hf]
  simp

/-- Step equation: a content line inside a fence only advances the offset. -/
theorem mdEventsLines_content (off : Nat) (info : Str) (cstart : Nat) (l : Str)
    (ls : List Str) (hc : closeFence l = false) :
    mdEventsLines off (some (info, cstart)) (l :: ls) =
      mdEventsLines (off + l.length + 1) (some (info, cstart)) ls := by
  simp only [mdEventsLines]
  rw [hc]
  simp

/-- Step equation: a closing fence line emits the content text event (when
non-empty) and the end event. -/
theorem mdEventsLines_close (off : Nat) (info : Str) (cstart : Nat) (l : Str)
    (ls : List Str) (hc : closeFence l = true) :
    mdEventsLines off (some (info, cstart)) (l :: ls) =
      (if cstart < off then [MdEvent.text cstart off] else []) ++
        .endFence info :: mdEventsLines (off + l.length + 1) none ls := by
  simp only [mdEventsLines]
  rw [hc]
  simp

/-- Scanning paragraph-or-blank lines produces only text events and passes
through. -/
theorem mdEventsLines_para (P : List Str) :
    ∀ (off : Nat) (rest : List Str), (∀ l ∈ P, strStarts fence3 l = false) →
    ∃ evs, mdEventsLines off none (P ++ rest) =
        evs ++ mdEventsLines (off + (linesJoin P).length) none rest ∧
      ∀ ev ∈ evs, ∃ a b, ev = MdEvent.text a b := by
  induction P with
  | nil =>
    intro off rest _
    exact ⟨[], by simp [linesJoin, joinAll], by simp⟩
  | cons l P ih =>
    intro off rest hP
    have hl := hP l (List.mem_cons_self _ _)
    have hP' := fun x hx => hP x (List.mem_cons_of_mem _ hx)
    by_cases hnil : l = []
    · subst hnil
      obtain ⟨evs, heq, htext⟩ := ih (off + 1) rest hP'
      refine ⟨evs, ?_, htext⟩
      rw [List.cons_append, mdEventsLines_blank, heq, linesJoin_cons]
      have harith : off + 1 + (linesJoin P).length =
          off + ([] ++ '\n' :: linesJoin P).length := by
        simp
        omega
      rw [harith]
    · obtain ⟨evs, heq, htext⟩ := ih (off + l.length + 1) rest hP'
      refine ⟨.text off (off + l.length) :: evs, ?_, ?_⟩
      · rw [List.cons_append, mdEventsLines_para_line off l (P ++ rest) hl hnil,
          heq, linesJoin_cons]
        have harith : off + l.length + 1 + (linesJoin P).length =
            off + (l ++ '\n' :: linesJoin P).length := by
          simp
          omega
        rw [harith, List.cons_append]
      · intro ev hev
        cases hev with
        | head => exact ⟨off, off + l.length, rfl⟩
        | tail _ hm => exact htext ev hm

/-- Scanning the content of an open fence up to its closing line emits the
single text event covering the content (when non-empty) and the end event. -/
theorem mdEventsLines_fence_content (cs : List Str) :
    ∀ (off cstart : Nat) (info : Str) (rest : List Str),
    (∀ l ∈ cs, closeFence l = false) →
    mdEventsLines off (some (info, cstart)) (cs ++ "```".data :: rest) =
      (if cstart < off + (linesJoin cs).length then
        [MdEvent.text cstart (off + (linesJoin cs).length)] else []) ++
        MdEvent.endFence info ::
          mdEventsLines (off + (linesJoin cs).length + 4) none rest := by
  induction cs with
  | nil =>
    intro off cstart info rest _
    rw [List.nil_append, mdEventsLines_close off info cstart "```".data rest rfl]
    have h0 : (linesJoin ([] : List Str)).length = 0 := rfl
    have h1 : ("```".data : Str).length = 3 := rfl
    have h2 : off + 3 + 1 = off + 4 := by omega
    rw [h0, h1, h2]
    simp
  | cons l cs ih =>
    intro off cstart info rest hcs
    have hl := hcs l (List.mem_cons_self _ _)
    rw [List.cons_append, mdEventsLines_content off info cstart l _ hl,
      ih (off + l.length + 1) cstart info rest
        (fun x hx => hcs x (List.mem_cons_of_mem _ hx))]
    have hlen : off + l.length + 1 + (linesJoin cs).length =
        off + (linesJoin (l :: cs)).length := by
      rw [linesJoin_cons]
      simp
      omega
    rw [hlen]

/-- A fold over text events alone stays in `State::None`. -/
theorem foldl_locStep_texts (evs : List MdEvent)
    (h : ∀ ev ∈ evs, ∃ a b, ev = MdEvent.text a b) :
    evs.foldl locStep .none = .none := by
  induction evs with
  | nil => rfl
  | cons e es ih =>
    obtain ⟨a, b, rfl⟩ := h e (List.mem_cons_self _ _)
    rw [List.foldl_cons]
    exact ih (fun ev hm => h ev (List.mem_cons_of_mem _ hm))

/-- `State::End` is absorbing under the fold. -/
theorem foldl_locStep_End (evs : List MdEvent) (s e : Nat) :
    evs.foldl locStep (.End s e) = .End s e := by
  induction evs with
  | nil => rfl
  | cons ev evs ih => rw [List.foldl_cons]; exact ih

/-- Every text event the scanner emits has an ordered span. -/
theorem mdEventsLines_text_le (ls : List Str) :
    ∀ (off : Nat) (st : Option (Str × Nat)) (a b : Nat),
    MdEvent.text a b ∈ mdEventsLines off st ls → a ≤ b := by
  induction ls with
  | nil =>
    intro off st a b hm
    cases st with
    | none => cases hm
    | some ic =>
      obtain ⟨info, cstart⟩ := ic
      simp only [mdEventsLines] at hm
      by_cases hlt : cstart < off
      · rw [if_pos hlt] at hm
        simp at hm
        obtain ⟨rfl, rfl⟩ := hm
        exact Nat.le_of_lt hlt
      · rw [if_neg hlt] at hm
        simp at hm
  | cons l ls ih =>
    intro off st a b hm
    cases st with
    | none =>
      by_cases hf : strStarts fence3 l = true
      · rw [mdEventsLines_open off l ls hf] at hm
        cases hm with
        | tail _ h => exact ih _ _ a b h
      · have hf' : strStarts fence3 l = false := by simpa using hf
        by_cases hnil : l = []
        · subst hnil
          rw [mdEventsLines_blank] at hm
          exact ih _ _ a b hm
        · rw [mdEventsLines_para_line off l ls hf' hnil] at hm
          cases hm with
          | head => exact Nat.le_add_right _ _
          | tail _ h => exact ih _ _ a b h
    | some ic =>
      obtain ⟨info, cstart⟩ := ic
      by_cases hc : closeFence l = true
      · rw [mdEventsLines_close off info cstart l ls hc] at hm
        by_cases hlt : cstart < off
        · rw [if_pos hlt] at hm
          rcases List.mem_append.mp hm with h1 | h2
          · simp at h1
            obtain ⟨rfl, rfl⟩ := h1
            exact Nat.le_of_lt hlt
          · cases h2 with
            | tail _ h => exact ih _ _ a b h
        · rw [if_neg hlt, List.nil_append] at hm
          cases hm with
          | tail _ h => exact ih _ _ a b h
      · have hc' : closeFence l = false := by simpa using hc
        rw [mdEventsLines_content off info cstart l ls hc'] at hm
        exact ih _ _ a b hm

/-- One automaton step only records spans of ordered text events. -/
theorem locStep_span (st : LocState) (ev : MdEvent)
    (hev : ∀ a b, ev = MdEvent.text a b → a ≤ b)
    (hst : ∀ a b, st = .text a b ∨ st = .End a b → a ≤ b) :
    ∀ a b, locStep st ev = .text a b ∨ locStep st ev = .End a b → a ≤ b := by
  intro a b h
  cases st with
  | none =>
    cases ev with
    | startFence info =>
      simp only [locStep] at h
      by_cases hinfo : info = reservedMarker
      · rw [if_pos hinfo] at h
        rcases h with h | h <;> simp at h
      · rw [if_neg hinfo] at h
        rcases h with h | h <;> simp at h
    | text x y =>
      simp only [locStep] at h
      rcases h with h | h <;> simp at h
    | endFence info =>
      simp only [locStep] at h
      rcases h with h | h <;> simp at h
  | start =>
    cases ev with
    | startFence info =>
      simp only [locStep] at h
      rcases h with h | h <;> simp at h
    | text x y =>
      simp only [locStep] at h
      rcases h with h | h
      · injection h with h1 h2
        subst h1
        subst h2
        exact hev _ _ rfl
      · simp at h
    | endFence info =>
      simp only [locStep] at h
      rcases h with h | h <;> simp at h
  | text x y =>
    have hxy := hst x y (Or.inl rfl)
    cases ev with
    | startFence info =>
      simp only [locStep] at h
      rcases h with h | h
      · injection h with h1 h2
        subst h1
        subst h2
        exact hxy
      · simp at h
    | text u v =>
      simp only [locStep] at h
      rcases h with h | h
      · injection h with h1 h2
        subst h1
        subst h2
        exact hxy
      · simp at h
    | endFence info =>
      simp only [locStep] at h
      by_cases hinfo : info = reservedMarker
      · rw [if_pos hinfo] at h
        rcases h with h | h
        · simp at h
        · injection h with h1 h2
          subst h1
          subst h2
          exact hxy
      · rw [if_neg hinfo] at h
        rcases h with h | h
        · injection h with h1 h2
          subst h1
          subst h2
          exact hxy
        · simp at h
  | End x y =>
    have hxy := hst x y (Or.inr rfl)
    simp only [locStep] at h
    rcases h with h | h
    · simp at h
    · injection h with h1 h2
      subst h1
      subst h2
      exact hxy

/-- The fold only records spans of text events it has seen. -/
theorem foldl_locStep_span (evs : List MdEvent)
    (hev : ∀ a b, MdEvent.text a b ∈ evs → a ≤ b) :
    ∀ st : LocState,
    (∀ a b, st = .text a b ∨ st = .End a b → a ≤ b) →
    ∀ a b, (evs.foldl locStep st = .text a b ∨ evs.foldl locStep st = .End a b) →
      a ≤ b := by
  induction evs with
  | nil => intro st hst a b h; exact hst a b h
  | cons ev evs ih =>
    intro st hst a b h
    rw [List.foldl_cons] at h
    refine ih (fun x y hm => hev x y (List.mem_cons_of_mem _ hm)) _ ?_ a b h
    exact locStep_span st ev
      (fun x y hxy => hev x y (by rw [← hxy]; exact List.mem_cons_self _ _)) hst

/-- A located span is ordered. -/
theorem docLocate_le (doc : Str) (s e : Nat) (h : docLocate doc = some (s, e)) :
    s ≤ e := by
  unfold docLocate at h
  have hspan := foldl_locStep_span (mdEvents doc)
    (fun a b hm => mdEventsLines_text_le _ _ _ a b hm) .none
    (fun a b hab => by rcases hab with h1 | h1 <;> cases h1)
  cases hst : (mdEvents doc).foldl locStep .none with
  | none => rw [hst] at h; cases h
  | start => rw [hst] at h; cases h
  | text a b => rw [hst] at h; cases h
  | End a b =>
    rw [hst] at h
    cases h
    exact hspan s e (Or.inr hst)

/-- `removeFirst` is the identity when nothing matches. -/
theorem removeFirst_of_none (p : TomlVal → Bool) (xs : List TomlVal)
    (h : ∀ v ∈ xs, p v = false) : removeFirst p xs = xs := by
  induction xs with
  | nil => rfl
  | cons v vs ih =>
    have hv := h v (List.mem_cons_self _ _)
    simp [removeFirst, hv]
    exact ih (fun w hw => h w (List.mem_cons_of_mem _ hw))

/-- `removeFirst` deletes exactly the first match. -/
theorem removeFirst_first (p : TomlVal → Bool) (as bs : List TomlVal) (v : TomlVal)
    (hv : p v = true) (has : ∀ a ∈ as, p a = false) :
    removeFirst p (as ++ v :: bs) = as ++ bs := by
  induction as with
  | nil => simp [removeFirst, hv]
  | cons a as ih =>
    have ha := has a (List.mem_cons_self _ _)
    simp [removeFirst, ha]
    exact ih (fun w hw => has w (List.mem_cons_of_mem _ hw))

/-- Slicing out the middle of a three-part append. -/
theorem strSlice_append_of (x y z : Str) (s e : Nat)
    (hs : s = x.length) (he : e = x.length + y.length) :
    strSlice s e (x ++ (y ++ z)) = y := by
  subst hs
  subst he
  unfold strSlice
  rw [List.drop_left, Nat.add_sub_cancel_left, List.take_left]

/-- Parsing a canonical rendering recovers its parts. -/
theorem srcParts_canonical (t : CanonSrc) (hc : canonicalB t = true) :
    srcParts (renderSrc t) = (t.shebang, t.docs.map emitDocLine, t.rest) ∧
    docBodyOf (renderSrc t) = linesJoin t.docs := by
  simp only [canonicalB, Bool.and_eq_true] at hc
  obtain ⟨⟨⟨⟨hA, hB⟩, hC⟩, hD⟩, hE⟩ := hc
  have hBall := List.all_eq_true.mp hB
  have hCall := List.all_eq_true.mp hC
  have hdocsNe : t.docs ≠ [] := by
    intro hh
    rw [hh] at hE
    cases hE
  have hlines : ∀ l ∈ t.shebang.toList ++ t.docs.map emitDocLine ++ t.rest,
      noNlCr l = true := by
    intro l hl
    rcases List.mem_append.mp hl with hl1 | hl3
    · rcases List.mem_append.mp hl1 with hl0 | hl2
      · cases hsb : t.shebang with
        | none => rw [hsb] at hl0; cases hl0
        | some sb =>
          rw [hsb] at hl0
          simp at hl0
          subst hl0
          rw [hsb] at hA
          simp only [Bool.and_eq_true] at hA
          exact hA.2
      · obtain ⟨c, hcmem, rfl⟩ := List.mem_map.mp hl2
        have := hBall c hcmem
        simp only [Bool.and_eq_true] at this
        exact noNlCr_emit c this.1
    · exact hCall l hl3
  have hrl : rustLines (renderSrc t) =
      t.shebang.toList ++ t.docs.map emitDocLine ++ t.rest := by
    unfold renderSrc
    exact rustLines_linesJoin _ hlines
  have hsplit : splitShebang (t.shebang.toList ++ t.docs.map emitDocLine ++ t.rest) =
      (t.shebang, t.docs.map emitDocLine ++ t.rest) := by
    cases hsb : t.shebang with
    | some sb =>
      rw [hsb] at hA
      simp only [Bool.and_eq_true] at hA
      simp [splitShebang, hA.1.1, hA.1.2]
    | none =>
      obtain ⟨c, cs, hdocs⟩ : ∃ c cs, t.docs = c :: cs := by
        cases hd : t.docs with
        | nil => exact absurd hd hdocsNe
        | cons c cs => exact ⟨c, cs, rfl⟩
      rw [hdocs]
      simp [splitShebang, strStarts_shebang_emit c]
  have htk := takeWhile_dropWhile_split (fun l => strStarts innerDoc l)
    (t.docs.map emitDocLine) t.rest
    (fun x hx => by
      obtain ⟨c, _, rfl⟩ := List.mem_map.mp hx
      exact strStarts_innerDoc_emit c)
    (fun y hy => by
      cases hr : t.rest with
      | nil => rw [hr] at hy; cases hy
      | cons r rs =>
        rw [hr] at hy
        simp at hy
        subst hy
        rw [hr] at hD
        simpa using hD)
  have hparts : srcParts (renderSrc t) = (t.shebang, t.docs.map emitDocLine, t.rest) := by
    unfold srcParts
    rw [hrl, hsplit]
    simp only
    rw [htk.1, htk.2]
  refine ⟨hparts, ?_⟩
  unfold docBodyOf
  rw [hparts]
  simp only [List.map_map]
  have hmap : t.docs.map (contribOf ∘ emitDocLine) = t.docs.map (fun c => c ++ ['\n']) := by
    apply List.map_congr_left
    intro c hcmem
    have hb := hBall c hcmem
    simp only [Bool.and_eq_true] at hb
    apply contribOf_emit
    intro x tl hx
    subst hx
    simpa using hb.2
  rw [hmap]
  rfl

/-! ## The claims -/

/-- C3: locator tie-break.  On a doc body holding two reserved fenced
blocks with non-empty content — possibly surrounded by paragraph or blank
lines — the locator-plus-projection returns the content of the first block
only; the second block neither wins nor causes an error. -/
theorem c3_first_block_wins (P M T c1 c2 : List Str) (label : Str)
    (hP : ∀ l ∈ P, noNlCr l = true ∧ strStarts fence3 l = false)
    (hM : ∀ l ∈ M, noNlCr l = true ∧ strStarts fence3 l = false)
    (hT : ∀ l ∈ T, noNlCr l = true)
    (hc1 : ∀ l ∈ c1, noNlCr l = true ∧ closeFence l = false)
    (hc2 : ∀ l ∈ c2, noNlCr l = true ∧ closeFence l = false)
    (h1 : c1 ≠ []) (h2 : c2 ≠ []) :
    docExtract (linesJoin (P ++ ("```cargo".data :: c1 ++ ["```".data]) ++ M ++
      ("```cargo".data :: c2 ++ ["```".data]) ++ T)) label = .ok (linesJoin c1) := by
  have hLnf : P ++ ("```cargo".data :: c1 ++ ["```".data]) ++ M ++
      ("```cargo".data :: c2 ++ ["```".data]) ++ T =
      P ++ ("```cargo".data :: (c1 ++ ("```".data ::
        (M ++ ("```cargo".data :: (c2 ++ ("```".data :: T))))))) := by
    simp [List.append_assoc]
  rw [hLnf]
  have hclean : ∀ l ∈ P ++ ("```cargo".data :: (c1 ++ ("```".data ::
      (M ++ ("```cargo".data :: (c2 ++ ("```".data :: T))))))), noNlCr l = true := by
    intro l hl
    simp only [List.mem_append, List.mem_cons] at hl
    rcases hl with hp | rfl | hc1m | rfl | hMm | rfl | hc2m | rfl | hTm
    · exact (hP l hp).1
    · decide
    · exact (hc1 l hc1m).1
    · decide
    · exact (hM l hMm).1
    · decide
    · exact (hc2 l hc2m).1
    · decide
    · exact hT l hTm
  have hrl := rustLines_linesJoin _ hclean
  obtain ⟨evsP, hPeq, hPtext⟩ := mdEventsLines_para P 0
    ("```cargo".data :: (c1 ++ ("```".data ::
      (M ++ ("```cargo".data :: (c2 ++ ("```".data :: T)))))))
    (fun l hl => (hP l hl).2)
  have hopen := mdEventsLines_open (0 + (linesJoin P).length) "```cargo".data
    (c1 ++ ("```".data :: (M ++ ("```cargo".data :: (c2 ++ ("```".data :: T)))))) rfl
  have hfi : fenceInfo "```cargo".data = "cargo".data := rfl
  rw [hfi] at hopen
  have hfc := mdEventsLines_fence_content c1
    (0 + (linesJoin P).length + ("```cargo".data : Str).length + 1)
    (0 + (linesJoin P).length + ("```cargo".data : Str).length + 1)
    "cargo".data (M ++ ("```cargo".data :: (c2 ++ ("```".data :: T))))
    (fun l hl => (hc1 l hl).2)
  have hL1pos : 0 < (linesJoin c1).length := linesJoin_length_pos c1 h1
  rw [if_pos (by omega)] at hfc
  have hevents : mdEvents (linesJoin (P ++ ("```cargo".data :: (c1 ++ ("```".data ::
      (M ++ ("```cargo".data :: (c2 ++ ("```".data :: T))))))))) =
      evsP ++ MdEvent.startFence "cargo".data ::
        MdEvent.text (0 + (linesJoin P).length + ("```cargo".data : Str).length + 1)
          (0 + (linesJoin P).length + ("```cargo".data : Str).length + 1 +
            (linesJoin c1).length) ::
        MdEvent.endFence "cargo".data ::
          mdEventsLines (0 + (linesJoin P).length + ("```cargo".data : Str).length + 1 +
              (linesJoin c1).length + 4) none
            (M ++ ("```cargo".data :: (c2 ++ ("```".data :: T)))) := by
    unfold mdEvents
    rw [hrl, hPeq, hopen, hfc]
    rfl
  have hfold : docLocate (linesJoin (P ++ ("```cargo".data :: (c1 ++ ("```".data ::
      (M ++ ("```cargo".data :: (c2 ++ ("```".data :: T))))))))) =
      some (0 + (linesJoin P).length + ("```cargo".data : Str).length + 1,
        0 + (linesJoin P).length + ("```cargo".data : Str).length + 1 +
          (linesJoin c1).length) := by
    unfold docLocate
    rw [hevents, List.foldl_append, foldl_locStep_texts evsP hPtext]
    simp only [List.foldl_cons]
    have e1 : locStep .none (.startFence "cargo".data) = .start := rfl
    rw [e1]
    have e2 : locStep .start (.text
        (0 + (linesJoin P).length + ("```cargo".data : Str).length + 1)
        (0 + (linesJoin P).length + ("```cargo".data : Str).length + 1 +
          (linesJoin c1).length)) = .text
        (0 + (linesJoin P).length + ("```cargo".data : Str).length + 1)
        (0 + (linesJoin P).length + ("```cargo".data : Str).length + 1 +
          (linesJoin c1).length) := rfl
    rw [e2]
    have e3 : locStep (.text
        (0 + (linesJoin P).length + ("```cargo".data : Str).length + 1)
        (0 + (linesJoin P).length + ("```cargo".data : Str).length + 1 +
          (linesJoin c1).length)) (.endFence "cargo".data) = .End
        (0 + (linesJoin P).length + ("```cargo".data : Str).length + 1)
        (0 + (linesJoin P).length + ("```cargo".data : Str).length + 1 +
          (linesJoin c1).length) := rfl
    rw [e3, foldl_locStep_End]
    rfl
  unfold docExtract
  rw [hfold]
  have hdocdecomp : linesJoin (P ++ ("```cargo".data :: (c1 ++ ("```".data ::
      (M ++ ("```cargo".data :: (c2 ++ ("```".data :: T)))))))) =
      (linesJoin P ++ ("```cargo".data ++ ['\n'])) ++
        (linesJoin c1 ++ (("```".data ++ ['\n']) ++
          linesJoin (M ++ ("```cargo".data :: (c2 ++ ("```".data :: T)))))) := by
    simp [linesJoin_append, linesJoin_cons, List.append_assoc]
  rw [hdocdecomp]
  have hslice := strSlice_append_of (linesJoin P ++ ("```cargo".data ++ ['\n']))
    (linesJoin c1)
    (("```".data ++ ['\n']) ++
      linesJoin (M ++ ("```cargo".data :: (c2 ++ ("```".data :: T)))))
    (0 + (linesJoin P).length + ("```cargo".data : Str).length + 1)
    (0 + (linesJoin P).length + ("```cargo".data : Str).length + 1 +
      (linesJoin c1).length)
    (by simp [List.length_append])
    (by simp [List.length_append])
  simp only [hslice]

/-- C3 witness: a two-block doc body surrounded by paragraph lines. -/
theorem c3_first_block_wins_witness :
    docExtract (linesJoin (["para".data] ++
      ("```cargo".data :: ["a = 1".data] ++ ["```".data]) ++ ["mid".data] ++
      ("```cargo".data :: ["b = 2".data] ++ ["```".data]) ++ [])) "lbl".data =
      .ok (linesJoin ["a = 1".data]) :=
  c3_first_block_wins ["para".data] ["mid".data] [] ["a = 1".data] ["b = 2".data]
    "lbl".data (by decide) (by decide) (by decide) (by decide) (by decide)
    (by decide) (by decide)

/-- C1 counterexample: the round-trip law fails on a source without a final
newline — `extract` succeeds, yet reassembly newline-terminates every line,
so `replace(s, extract(s)).0` is `s` plus a trailing newline. -/
theorem c1_round_trip_counterexample :
    extract_cargo_lang_code c1xSrc [] = .ok c1xManifest ∧
    (replace_cargo_lang_code c1xSrc c1xManifest []).map (fun p => p.1) =
      .ok (c1xSrc ++ ['\n']) ∧
    c1xSrc ++ ['\n'] ≠ c1xSrc :=
  ⟨rfl, rfl, by decide⟩

/-- C1 amended: for every canonically formatted source — `'\n'`-terminated
lines including the last, doc lines written as `//!` or `//! c` with `c`
not starting in a space, the doc comment a leading run — on which `extract`
succeeds returning an empty or newline-terminated fragment,
`replace(s, extract(s))` reassembles a source byte-identical to `s` (and
reports that same fragment as the replaced text). -/
theorem c1_round_trip_amended (t : CanonSrc) (label m : Str)
    (hc : canonicalB t = true)
    (hx : extract_cargo_lang_code (renderSrc t) label = .ok m)
    (hnl : m = [] ∨ endsWithNl m = true) :
    replace_cargo_lang_code (renderSrc t) m label = .ok (renderSrc t, m) := by
  obtain ⟨hparts, hdoc⟩ := srcParts_canonical t hc
  have hdocsClean : ∀ c ∈ t.docs, noNlCr c = true := by
    simp only [canonicalB, Bool.and_eq_true] at hc
    intro c hcm
    have := List.all_eq_true.mp hc.1.1.1.2 c hcm
    simp only [Bool.and_eq_true] at this
    exact this.1
  simp only [extract_cargo_lang_code, replace_cargo_lang_code] at hx
  rw [hdoc] at hx
  cases hloc : docLocate (linesJoin t.docs) with
  | none =>
    rw [hloc] at hx
    simp [Except.map] at hx
  | some se =>
    obtain ⟨sp, ep⟩ := se
    rw [hloc] at hx
    simp only [Except.map] at hx
    have hm : strSlice sp ep (linesJoin t.docs) = m := by
      cases hx
      rfl
    have hse : sp ≤ ep := docLocate_le _ _ _ hloc
    have hw : normWith m = m := by
      unfold normWith
      rcases hnl with h | h <;> simp [h]
    simp only [replace_cargo_lang_code]
    rw [hdoc, hloc, hparts]
    have hcdoc : (linesJoin t.docs).take sp ++ normWith m ++ (linesJoin t.docs).drop ep =
        linesJoin t.docs := by
      rw [hw, ← hm]
      exact splice_slice_eq _ sp ep hse
    simp only [hcdoc, rustLines_linesJoin _ hdocsClean, hm]
    rfl

/-- C1 amended witness: a concrete canonical source with shebang round
trips exactly. -/
theorem c1_round_trip_amended_witness :
    canonicalB c1wCanon = true ∧
    replace_cargo_lang_code (renderSrc c1wCanon) "a = 1\n".data [] =
      .ok (renderSrc c1wCanon, "a = 1\n".data) :=
  ⟨by decide,
   c1_round_trip_amended c1wCanon [] "a = 1\n".data (by decide) rfl (Or.inr rfl)⟩

/-- C2: on the §8 concrete scenario (shebang line, a leading doc comment
holding a reserved-marker fenced block with the single content line
`name = "old"`, then `fn main() {}`), `extract` returns `name = "old"\n`,
and `replace` with `name = "new"\n` returns the source with only the
manifest line changed, the shebang and `fn main() {}` lines untouched. -/
theorem c2_concrete_scenario :
    extract_cargo_lang_code c2Src [] = .ok c2Old ∧
    replace_cargo_lang_code c2Src c2New [] = .ok (c2Out, c2Old) :=
  ⟨rfl, rfl⟩

/-- C10: `extract` is the read-only projection of `replace`: it is the
second component of `replace` at the empty replacement, succeeds exactly
when that `replace` succeeds, agrees with the spec's direct
harvest-locate-slice description, and the empty replacement is not
newline-normalized. -/
theorem c10_extract_projection (code label : Str) :
    extract_cargo_lang_code code label =
      (replace_cargo_lang_code code [] label).map (fun p => p.2) ∧
    extract_cargo_lang_code code label = extractSpec code label ∧
    (extract_cargo_lang_code code label).isOk =
      (replace_cargo_lang_code code [] label).isOk ∧
    normWith [] = [] := by
  refine ⟨rfl, ?_, ?_, rfl⟩
  · unfold extract_cargo_lang_code replace_cargo_lang_code extractSpec docExtract
    cases h : docLocate (docBodyOf code) with
    | none => simp [h, Except.map]
    | some se => cases se with | mk s e => simp [h, Except.map]
  · unfold extract_cargo_lang_code
    cases h : replace_cargo_lang_code code [] label with
    | error e => simp [Except.map, Except.isOk, Except.toBool]
    | ok v => simp [Except.map, Except.isOk, Except.toBool]

/-- C9: whenever the locator automaton never reaches `End` on the doc body's
event stream, `replace` and `extract` fail with the not-found error carrying
the caller-supplied label (no reassembled text is produced); in particular
the automaton never reaches `End` when no event opens a reserved-marker
fenced block. -/
theorem c9_not_found (code w label : Str) :
    (docLocate (docBodyOf code) = none →
      replace_cargo_lang_code code w label = .error (.notFound label) ∧
      extract_cargo_lang_code code label = .error (.notFound label)) ∧
    (∀ doc : Str, (∀ ev ∈ mdEvents doc, ev ≠ .startFence reservedMarker) →
      docLocate doc = none) := by
  constructor
  · intro h
    constructor
    · unfold replace_cargo_lang_code
      simp [h]
    · unfold extract_cargo_lang_code replace_cargo_lang_code
      simp [h, Except.map]
  · intro doc h
    unfold docLocate
    rw [foldl_locStep_of_no_marker _ h]
    rfl

/-- C9 witness: a source whose doc body has no reserved fenced block. -/
theorem c9_not_found_witness :
    replace_cargo_lang_code "//! hi\nfn main() {}\n".data [] "lbl".data
        = .error (.notFound "lbl".data) ∧
      extract_cargo_lang_code "//! hi\nfn main() {}\n".data "lbl".data
        = .error (.notFound "lbl".data) :=
  (c9_not_found "//! hi\nfn main() {}\n".data [] "lbl".data).1 rfl

/-- C5: push state selection.  With a stored remote id, equal remote and
local content selects `UpToDate`: push reports it and performs zero network
write calls.  Unequal content selects `Forward`: a (non-dry-run) push
performs exactly one `PATCH` call, to the existing record's id. -/
theorem c5_push_state_selection (o : PushOpts) (remote : Str × Str)
    (newId gid : Str) (hgid : o.gistId = some gid) :
    ((remote.1 = o.code && descMatches o.description remote.2) = true →
      pushState o remote = .upToDate ∧
      (push o remote newId).logs = [.upToDate] ∧
      (push o remote newId).writes = []) ∧
    ((remote.1 = o.code && descMatches o.description remote.2) = false →
      o.dryRun = false →
      pushState o remote = .forward gid remote.1 remote.2 ∧
      (push o remote newId).writes =
        [.patch gid (o.description.getD remote.2) (o.package ++ ".rs".data) o.code]) := by
  constructor
  · intro h
    have hst : pushState o remote = .upToDate := by
      unfold pushState
      rw [hgid, h]
      rfl
    refine ⟨hst, ?_, ?_⟩ <;> simp [push, hst]
  · intro h hdry
    have hst : pushState o remote = .forward gid remote.1 remote.2 := by
      unfold pushState
      rw [hgid, h]
      rfl
    refine ⟨hst, ?_⟩
    simp [push, hst, hdry]

/-- C5 witness: a concrete up-to-date pair and a concrete diverged pair. -/
theorem c5_push_state_selection_witness :
    ((push ⟨[], some "g".data, "c".data, "p".data, false, false, none, false⟩
        ("c".data, "d".data) []).writes = []) ∧
    ((push ⟨[], some "g".data, "b".data, "p".data, false, false, none, false⟩
        ("a".data, "d".data) []).writes =
      [.patch "g".data "d".data "p.rs".data "b".data]) :=
  ⟨((c5_push_state_selection ⟨[], some "g".data, "c".data, "p".data, false, false, none, false⟩
      ("c".data, "d".data) [] "g".data rfl).1 (by decide)).2.2,
   ((c5_push_state_selection ⟨[], some "g".data, "b".data, "p".data, false, false, none, false⟩
      ("a".data, "d".data) [] "g".data rfl).2 (by decide) rfl).2⟩

/-- C6: a push with no stored remote id and `set_upstream` off fails with
the message instructing the caller to enable `--set-upstream`, performs zero
network write calls, and leaves the gist-id registry entry absent. -/
theorem c6_not_exist_requires_set_upstream (o : PushOpts) (remote : Str × Str)
    (newId : Str) (hgid : o.gistId = none) (hsu : o.setUpstream = false) :
    push o remote newId =
      { writes := [], logs := [], gistIdAfter := none,
        result := .error pushMsgSetUpstream } := by
  have hst : pushState o remote = .notExist := by
    unfold pushState
    rw [hgid]
  simp [push, hst, hsu, hgid]

/-- C6 witness: a concrete `NotExist` push without `set_upstream`. -/
theorem c6_not_exist_requires_set_upstream_witness :
    push ⟨[], none, "b".data, "p".data, false, false, none, false⟩
        ("a".data, "d".data) "n".data =
      { writes := [], logs := [], gistIdAfter := none,
        result := .error pushMsgSetUpstream } :=
  c6_not_exist_requires_set_upstream
    ⟨[], none, "b".data, "p".data, false, false, none, false⟩
    ("a".data, "d".data) "n".data rfl rfl

/-- C8: remote record validation.  Zero candidate content files fail with
the none-found error; several fail with the distinct error naming every
candidate; a single truncated candidate is rejected; the content is
returned only for exactly one non-truncated candidate. -/
theorem c8_remote_record_validation (files : List GistFile) (description : Str) :
    (files.filter isRustFile = [] →
      retrieve_rust_code files description = .error .noRust) ∧
    (∀ f g fs, files.filter isRustFile = f :: g :: fs →
      retrieve_rust_code files description =
        .error (.multiple ((f :: g :: fs).map (fun x => x.filename)))) ∧
    (∀ f, files.filter isRustFile = [f] → f.truncated = true →
      retrieve_rust_code files description = .error (.truncated f.filename)) ∧
    (∀ f, files.filter isRustFile = [f] → f.truncated = false →
      retrieve_rust_code files description = .ok (f.content, description)) := by
  refine ⟨?_, ?_, ?_, ?_⟩
  · intro h
    unfold retrieve_rust_code
    rw [h]
  · intro f g fs h
    unfold retrieve_rust_code
    rw [h]
  · intro f h ht
    unfold retrieve_rust_code
    rw [h]
    simp [ht]
  · intro f h ht
    unfold retrieve_rust_code
    rw [h]
    simp [ht]

/-- C8 witness: concrete records with zero, two, one truncated, and one
good candidate. -/
theorem c8_remote_record_validation_witness :
    retrieve_rust_code [⟨"a.txt".data, false, "x".data⟩] "d".data = .error .noRust ∧
    retrieve_rust_code [⟨"a.rs".data, false, "x".data⟩, ⟨"b.crs".data, false, "y".data⟩]
        "d".data = .error (.multiple ["a.rs".data, "b.crs".data]) ∧
    retrieve_rust_code [⟨"a.rs".data, true, "x".data⟩] "d".data =
      .error (.truncated "a.rs".data) ∧
    retrieve_rust_code [⟨"a.rs".data, false, "x".data⟩] "d".data =
      .ok ("x".data, "d".data) :=
  ⟨(c8_remote_record_validation [⟨"a.txt".data, false, "x".data⟩] "d".data).1 (by decide),
   (c8_remote_record_validation
       [⟨"a.rs".data, false, "x".data⟩, ⟨"b.crs".data, false, "y".data⟩] "d".data).2.1
     ⟨"a.rs".data, false, "x".data⟩ ⟨"b.crs".data, false, "y".data⟩ [] (by decide),
   (c8_remote_record_validation [⟨"a.rs".data, true, "x".data⟩] "d".data).2.2.1
     ⟨"a.rs".data, true, "x".data⟩ (by decide) rfl,
   (c8_remote_record_validation [⟨"a.rs".data, false, "x".data⟩] "d".data).2.2.2
     ⟨"a.rs".data, false, "x".data⟩ (by decide) rfl⟩

/-- C7 counterexample: the claim that a dry run reports the same intended
change, including emitted diffs, as the real run is false: a concrete
`Forward` push emits no diff reports under dry-run while the same
invocation without dry-run emits two. -/
theorem c7_counterexample :
    diffLogs (push ⟨[], some "g".data, "b".data, "p".data, false, false, none, true⟩
        ("a".data, "d".data) []).logs ≠
      diffLogs (push ⟨[], some "g".data, "b".data, "p".data, false, false, none, false⟩
        ("a".data, "d".data) []).logs := by
  decide

/-- C7 amended: `dry_run` uniformly suppresses the write step — a dry-run
push performs zero network write calls and a dry-run membership edit never
writes the manifest file, while the membership edit's reports (and its
success or failure) are identical to the real run's; but the dry-run push
reports only the request line, omitting the diffs a real run emits (see the
counterexample). -/
theorem c7_dry_run_skips_writes (o : PushOpts) (remote : Str × Str) (newId : Str)
    (root : PathM) (doc : WsToml) (aM aE rM rE : Option PathM)
    (hdry : o.dryRun = true) :
    (push o remote newId).writes = [] ∧
    (∀ out, modify_members root doc aM aE rM rE true = .ok out →
      out.fileWritten = false) ∧
    (modify_members root doc aM aE rM rE true).map (fun out => out.logs) =
      (modify_members root doc aM aE rM rE false).map (fun out => out.logs) := by
  refine ⟨?_, ?_, ?_⟩
  · unfold push
    cases hst : pushState o remote with
    | upToDate => rfl
    | forward gid rc rd => simp [hdry]
    | notExist =>
      cases hsu : o.setUpstream with
      | false => simp [hsu]
      | true => simp [hsu, hdry]
  · intro out h
    unfold modify_members at h
    cases hm : asArray "members".data doc.members with
    | error e => rw [hm] at h; exact absurd h (by simp [Bind.bind, Except.bind])
    | ok xs =>
      cases he : asArray "exclude".data doc.exclude with
      | error e =>
        rw [hm, he] at h
        exact absurd h (by simp [Bind.bind, Except.bind])
      | ok ys =>
        rw [hm, he] at h
        simp [Bind.bind, Except.bind] at h
        rw [← h]
  · unfold modify_members
    cases hm : asArray "members".data doc.members with
    | error e => rfl
    | ok xs =>
      cases he : asArray "exclude".data doc.exclude with
      | error e => simp [Bind.bind, Except.bind]
      | ok ys => simp [Bind.bind, Except.bind, Except.map]

/-- C7 witness: a concrete dry-run push and membership edit. -/
theorem c7_dry_run_skips_writes_witness :
    (push ⟨[], some "g".data, "b".data, "p".data, false, false, none, true⟩
        ("a".data, "d".data) []).writes = [] ∧
    (∀ out, modify_members ["w".data] ⟨.array [], .array [], []⟩
        (some ["x".data]) none none none true = .ok out → out.fileWritten = false) :=
  ⟨(c7_dry_run_skips_writes
      ⟨[], some "g".data, "b".data, "p".data, false, false, none, true⟩
      ("a".data, "d".data) [] ["w".data] ⟨.array [], .array [], []⟩
      (some ["x".data]) none none none rfl).1,
   (c7_dry_run_skips_writes
      ⟨[], some "g".data, "b".data, "p".data, false, false, none, true⟩
      ("a".data, "d".data) [] ["w".data] ⟨.array [], .array [], []⟩
      (some ["x".data]) none none none rfl).2.1⟩

/-- C4 counterexample: the claim that an add-of-a-present-path writes
manifest text equal to the original fails when the other list's key is
absent — accessing `workspace.exclude` materializes it as an empty array,
changing the written text even though the members array is untouched. -/
theorem c4_counterexample :
    (modify_members [] ⟨.array [.str "pkg/a".data], .missing, []⟩
        (some ["pkg".data, "a".data]) none none none false).map
        (fun o => (o.doc.members, o.written)) =
      .ok (.array [.str "pkg/a".data],
        renderWs ⟨.array [.str "pkg/a".data], .array [], []⟩) ∧
    renderWs ⟨.array [.str "pkg/a".data], .array [], []⟩ ≠
      renderWs ⟨.array [.str "pkg/a".data], .missing, []⟩ := by
  constructor
  · decide
  · decide

/-- C4 amended: on a workspace manifest whose `members` and `exclude` keys
are both present as arrays, membership edits are idempotent under path
equality (entries compared by joining to the workspace root, so `./x` and
`x` are equal): adding an already-present path changes nothing and the
written text equals the original; removing an absent path changes nothing;
and a removal deletes only the first equal entry.  (When a key is missing
the edit materializes it as an empty array, altering the text — see the
counterexample.) -/
theorem c4_membership_edits (root : PathM) (doc : WsToml) (xs ys : List TomlVal)
    (p : PathM) (dryRun : Bool)
    (hm : doc.members = .array xs) (he : doc.exclude = .array ys) :
    ((∃ v ∈ xs, samePathsW root v (relativeToRoot root p) = true) →
      modify_members root doc (some p) none none none dryRun =
        .ok ⟨doc, renderWs doc, !dryRun, [.added (relativeToRoot root p) "members".data]⟩) ∧
    ((∀ v ∈ xs, samePathsW root v (relativeToRoot root p) = false) →
      modify_members root doc none none (some p) none dryRun =
        .ok ⟨doc, renderWs doc, !dryRun, [.removed (relativeToRoot root p) "members".data]⟩) ∧
    (∀ as v bs, xs = as ++ v :: bs →
      samePathsW root v (relativeToRoot root p) = true →
      (∀ a ∈ as, samePathsW root a (relativeToRoot root p) = false) →
      modify_members root doc none none (some p) none false =
        .ok ⟨{ doc with members := .array (as ++ bs) },
          renderWs { doc with members := .array (as ++ bs) }, true,
          [.removed (relativeToRoot root p) "members".data]⟩) := by
  obtain ⟨dm, de, df⟩ := doc
  simp only [WsToml.mk.injEq] at hm he ⊢
  subst hm
  subst he
  refine ⟨?_, ?_, ?_⟩
  · rintro ⟨v, hv, hsame⟩
    have hall : xs.all (fun v => !samePathsW root v (relativeToRoot root p)) = false := by
      cases hall : xs.all (fun v => !samePathsW root v (relativeToRoot root p)) with
      | true =>
        have := List.all_eq_true.mp hall v hv
        rw [hsame] at this
        exact absurd this (by decide)
      | false => rfl
    simp [modify_members, asArray, orInsertArray, Bind.bind, Except.bind,
      editList, editLogs, hall]
  · intro habs
    have hrem : removeFirst (fun v => samePathsW root v (relativeToRoot root p)) xs = xs :=
      removeFirst_of_none _ _ habs
    cases hdry : dryRun with
    | true => simp [modify_members, asArray, orInsertArray, Bind.bind, Except.bind,
        editList, editLogs]
    | false => simp [modify_members, asArray, orInsertArray, Bind.bind, Except.bind,
        editList, editLogs, hrem]
  · intro as v bs hxs hsame has
    subst hxs
    have hrem := removeFirst_first (fun v => samePathsW root v (relativeToRoot root p))
      as bs v hsame has
    simp [modify_members, asArray, orInsertArray, Bind.bind, Except.bind,
      editList, editLogs, hrem]

/-- C4 witness: with workspace root at the origin, `./x` is an entry equal
to the target `x`; adding is a no-op with unchanged text, removing an
absent path is a no-op, and removing `x` from `[x, ./x]` deletes only the
first entry. -/
theorem c4_membership_edits_witness :
    (modify_members [] ⟨.array [.str "./x".data], .array [], []⟩
        (some ["x".data]) none none none false =
      .ok ⟨⟨.array [.str "./x".data], .array [], []⟩,
        renderWs ⟨.array [.str "./x".data], .array [], []⟩, true,
        [.added "x".data "members".data]⟩) ∧
    (modify_members [] ⟨.array [.str "y".data], .array [], []⟩
        none none (some ["x".data]) none false =
      .ok ⟨⟨.array [.str "y".data], .array [], []⟩,
        renderWs ⟨.array [.str "y".data], .array [], []⟩, true,
        [.removed "x".data "members".data]⟩) ∧
    (modify_members [] ⟨.array [.str "x".data, .str "./x".data], .array [], []⟩
        none none (some ["x".data]) none false =
      .ok ⟨⟨.array [.str "./x".data], .array [], []⟩,
        renderWs ⟨.array [.str "./x".data], .array [], []⟩, true,
        [.removed "x".data "members".data]⟩) :=
  ⟨(c4_membership_edits [] ⟨.array [.str "./x".data], .array [], []⟩
      [.str "./x".data] [] ["x".data] false rfl rfl).1
      ⟨.str "./x".data, by decide, by decide⟩,
   (c4_membership_edits [] ⟨.array [.str "y".data], .array [], []⟩
      [.str "y".data] [] ["x".data] false rfl rfl).2.1 (by decide),
   (c4_membership_edits [] ⟨.array [.str "x".data, .str "./x".data], .array [], []⟩
      [.str "x".data, .str "./x".data] [] ["x".data] false rfl rfl).2.2
      [] (.str "x".data) [.str "./x".data] rfl (by decide) (by decide)⟩

end Bikecase
